import Mathlib

/-!
Shallow embedding of the "lowest unique integer" match orchestrator
(`src/src/main.rs`, `src/src/client.rs`).

The per-client protocol state machine (`State`, `Client`, `poll`, the `send_*`
operations) is modelled with machine integers as `Nat` (u32 values are bounded
by `UMAX = u32::MAX`), blocking reads abstracted as a `ReadResult` (the line
that was read, trimmed, or a deadline/IO failure) and blocking writes as a
`WriteResult`.  The round computation of `play_round` and the score update of
`main` are modelled as pure list functions.
-/

namespace Game

/-- The value `u32::MAX`: the sentinel value assigned by `Client::err` (client.rs),
and the upper bound of the u32 guess domain. -/
def UMAX : Nat := 4294967295

/-! ### Decimal parsing (`line.parse::<u32>()`) and rendering (`write!("{}", x)`) -/

/-- One digit step of Rust's `u32::from_str`: accept a decimal digit, multiply
the accumulator by 10 and add the digit's value, failing on overflow past
`UMAX` (Rust's checked multiply/add). -/
def parseU32Step (acc : Option Nat) (c : Char) : Option Nat :=
  acc.bind fun v =>
    if c.isDigit then
      if v * 10 + (c.toNat - 48) ≤ UMAX then some (v * 10 + (c.toNat - 48)) else none
    else none

/-- Rust's unsigned `from_str` accepts one optional leading `'+'` sign. -/
def stripPlus (cs : List Char) : List Char :=
  match cs with
  | [] => []
  | c :: r => if c = '+' then r else c :: r

/-- Model of `str::parse::<u32>` on a (trimmed) line, as called in
`Client::poll` (client.rs): optional `'+'`, then one or more decimal
digits, rejecting the empty digit string and any value above `u32::MAX`. -/
def parseU32 (cs : List Char) : Option Nat :=
  let ds := stripPlus cs
  if ds.isEmpty then none else ds.foldl parseU32Step (some 0)

/-- Decimal rendering of a `Nat`, fuelled so that the recursion is structural;
`fuel > n` suffices. Mirrors Rust's `Display` for unsigned integers
(most significant digit first, no sign, no leading zeros except `"0"`). -/
def toDecChars (fuel n : Nat) : List Char :=
  match fuel with
  | 0 => []
  | fuel' + 1 =>
    if n < 10 then [Nat.digitChar n]
    else toDecChars fuel' (n / 10) ++ [Nat.digitChar (n % 10)]

/-- The decimal representation written by `write!(buf, "{}", x)` in
`Client::send_nums` (client.rs). -/
def toDecimal (n : Nat) : List Char := toDecChars (n + 1) n

/-! ### The client protocol state machine (client.rs) -/

/-- The `State` enum of client.rs: `Init` (initializing), `Error`,
`Wait` (waits for game start), `Step` (selects step), `PostStep`
(waits for round results), `End` (finished). -/
inductive State where
  | Init
  | Error
  | Wait
  | Step
  | PostStep
  | End
  deriving DecidableEq

/-- The observable fields of the `Client` struct of client.rs: the protocol
`state` and the last received value `num` (a u32). The subprocess handle and
the stream buffers are not modelled; their behaviour enters through
`ReadResult`/`WriteResult`. -/
structure Client where
  state : State
  num : Nat
  deriving DecidableEq

/-- Model of `Client::from_child` (client.rs): a freshly constructed client starts in
`Init` with `num` initialized to the placeholder `0xDEADBEEF`. -/
def fromChild : Client := { state := State.Init, num := 0xDEADBEEF }

/-- Model of `Client::err` (client.rs): enter the `Error` state and set `num` to the
sentinel `u32::max_value()`. -/
def err (c : Client) : Client := { c with state := State.Error, num := UMAX }

/-- Model of `Client::get_num` (client.rs). -/
def get_num (c : Client) : Nat := c.num

/-- Model of `Client::is_init` (client.rs). -/
def is_init (c : Client) : Bool := decide (c.state = State.Init)

/-- Outcome of one `Client::read_line` call, as observed by `poll`:
either the line that was read (already `trim`med by the reader thread),
or a missed deadline, or an I/O error reported by the reader thread. -/
inductive ReadResult where
  | line (cs : List Char)
  | timeout
  | ioError
  deriving DecidableEq

/-- Outcome of one `Client::send_line` call: success, or a missed 100 ms
deadline, or a write/flush failure reported by the writer thread. -/
inductive WriteResult where
  | ok
  | timeout
  | wError
  deriving DecidableEq

/-- The trimmed handshake line expected while in `Init`. -/
def readyLine : List Char := "ready".data

/-- Model of `Client::poll` (client.rs): a no-op in `Error`, `Wait`, `PostStep` and
`End`; in `Init` a read of `"ready"` moves to `Wait` and anything else
(unknown line, deadline, I/O error) to `Error`; in `Step` a line parsing as a
u32 is stored in `num` and moves to `PostStep`, anything else to `Error`.
Both failure paths of `read_line` (deadline, reader error) call `err`, as does
the caller on the bailed-out `Result`; `err` is idempotent, so one `err`
models them. -/
def poll (c : Client) (r : ReadResult) : Client :=
  match c.state with
  | State.Error => c
  | State.Wait => c
  | State.PostStep => c
  | State.End => c
  | State.Init =>
    match r with
    | ReadResult.line cs => if cs = readyLine then { c with state := State.Wait } else err c
    | ReadResult.timeout => err c
    | ReadResult.ioError => err c
  | State.Step =>
    match r with
    | ReadResult.line cs =>
      match parseU32 cs with
      | some g => { c with num := g, state := State.PostStep }
      | none => err c
    | ReadResult.timeout => err c
    | ReadResult.ioError => err c

/-- The effect of `Client::send_line` (client.rs) on the client's fields:
on deadline or write failure the client is moved to `Error`. -/
def sendLineRes (c : Client) (w : WriteResult) : Client :=
  match w with
  | WriteResult.ok => c
  | WriteResult.timeout => err c
  | WriteResult.wError => err c

/-- The bytes `b"game\n"` sent by `Client::send_game`. -/
def gameLine : List Char := "game\n".data

/-- The bytes `b"end\n"` sent by `Client::send_end`. -/
def endLine : List Char := "end\n".data

/-- The space-separated joining of `Client::send_nums`'s buffer loop: each
value is preceded by a space iff the buffer is nonempty (every rendered token
is nonempty, so this equals interleaving single spaces). -/
def joinTokens : List (List Char) → List Char
  | [] => []
  | [t] => t
  | t :: ts => t ++ ' ' :: joinTokens ts

/-- The full line written by `Client::send_nums` (client.rs): the decimal
values space-separated in match order, terminated by `"\n"`. -/
def numsLine (nums : List Nat) : List Char := joinTokens (nums.map toDecimal) ++ ['\n']

/-- Model of `Client::send_game` (client.rs): a no-op in `Error`; otherwise writes
`"game\n"` (a failed write calls `err`) and then sets the state to `Step`
(overwriting, in the source's order, whatever `send_line` left). The second
component is the line handed to `send_line`, `none` when nothing is sent. -/
def send_game (c : Client) (w : WriteResult) : Client × Option (List Char) :=
  if c.state = State.Error then (c, none)
  else ({ sendLineRes c w with state := State.Step }, some gameLine)

/-- Model of `Client::send_end` (client.rs): a no-op in `Error`; otherwise writes
`"end\n"` and then sets the state to `End`. -/
def send_end (c : Client) (w : WriteResult) : Client × Option (List Char) :=
  if c.state = State.Error then (c, none)
  else ({ sendLineRes c w with state := State.End }, some endLine)

/-- Model of `Client::send_nums` (client.rs): a no-op in `Error`; otherwise sets the
state to `Wait` and then writes the joined value line (so a failed write
leaves the client in `Error`). -/
def send_nums (c : Client) (nums : List Nat) (w : WriteResult) : Client × Option (List Char) :=
  if c.state = State.Error then (c, none)
  else (sendLineRes { c with state := State.Wait } w, some (numsLine nums))

/-- Model of `wait_ready` (main.rs): one single poll pass over all clients, pairing
each client with the outcome of its one read. -/
def wait_ready (cs : List Client) (rs : List ReadResult) : List Client :=
  List.zipWith poll cs rs

/-- The clients reachable from construction by the operations the orchestrator
may perform (`poll`, `send_game`, `send_nums`, `send_end`). -/
inductive Reach : Client → Prop where
  | init : Reach fromChild
  | step_poll (c : Client) (r : ReadResult) : Reach c → Reach (poll c r)
  | step_game (c : Client) (w : WriteResult) : Reach c → Reach (send_game c w).1
  | step_nums (c : Client) (ns : List Nat) (w : WriteResult) : Reach c → Reach (send_nums c ns w).1
  | step_end (c : Client) (w : WriteResult) : Reach c → Reach (send_end c w).1

/-! ### The round computation (`play_round` and the score update in `main`, main.rs) -/

/-- Model of `HashSet::insert` on a list-modelled set (membership is all that
`play_round` observes). -/
def insertSet (x : Nat) (s : List Nat) : List Nat := if x ∈ s then s else x :: s

/-- One iteration of `play_round`'s duplicate-detection loop: insert `x` into
`set_used`; when it was already there, record it in `set_loose`. -/
def looseStep (p : List Nat × List Nat) (x : Nat) : List Nat × List Nat :=
  if x ∈ p.1 then (p.1, insertSet x p.2) else (insertSet x p.1, p.2)

/-- The `set_loose` computed by `play_round` (main.rs): the values submitted
more than once this round. -/
def looseSet (nums : List Nat) : List Nat := (nums.foldl looseStep ([], [])).2

/-- The filtered `(pos, val)` pairs of `play_round`: `nums.iter().enumerate()`
keeping the positions whose value is not in `set_loose`. -/
def survivors (nums : List Nat) : List (Nat × Nat) :=
  nums.enum.filter fun p => !((looseSet nums).contains p.2)

/-- Stable insertion into a by-value sorted list of `(pos, val)` pairs. -/
def insertByVal (x : Nat × Nat) : List (Nat × Nat) → List (Nat × Nat)
  | [] => [x]
  | y :: ys => if x.2 ≤ y.2 then x :: y :: ys else y :: insertByVal x ys

/-- The `sort_by_key(|(_pos, val)| *val)` of `play_round`, modelled as a
stable insertion sort (survivor values are pairwise distinct, so any sort by
value produces this order). -/
def sortByVal : List (Nat × Nat) → List (Nat × Nat)
  | [] => []
  | x :: xs => insertByVal x (sortByVal xs)

/-- Model of `play_round`'s `RoundOutcome.winners` (main.rs): the positions of the
uniquely-submitted values, sorted ascending by value. -/
def playRound (nums : List Nat) : List Nat :=
  (sortByVal (survivors nums)).map Prod.fst

/-- The score update in `main` (main.rs, lines 41-49): if `winners.get(0)` is
present, credit exactly that competitor with one point. -/
def applyOutcome (score : List Nat) (winners : List Nat) : List Nat :=
  match winners.head? with
  | some w => score.set w (score.getD w 0 + 1)
  | none => score

/-! ### The reference competitor's parsing of the broadcast line -/

/-- Rust's `str::split(' ')` on the characters of a line: splitting on every
space, adjacent separators producing empty tokens. -/
def splitSpaces : List Char → List (List Char)
  | [] => [[]]
  | c :: rest =>
    if c = ' ' then [] :: splitSpaces rest
    else
      match splitSpaces rest with
      | [] => [[c]]
      | t :: ts => (c :: t) :: ts

/-- Right-trim of trailing whitespace (the part of `str::trim` that acts on
the broadcast line, whose only whitespace is the final `'\n'`). -/
def trimRight (cs : List Char) : List Char :=
  (cs.reverse.dropWhile Char.isWhitespace).reverse

/-- Parse every token, failing if any single token fails. -/
def parseAll : List (List Char) → Option (List Nat)
  | [] => some []
  | t :: ts =>
    match parseU32 t, parseAll ts with
    | some v, some vs => some (v :: vs)
    | _, _ => none

/-- Modelled from the spec: the reference competitor program (not part of
`src/`) reads the broadcast line, strips the terminator, splits it on spaces
and parses each token back as an unsigned integer. -/
def decodeNums (line : List Char) : Option (List Nat) :=
  parseAll (splitSpaces (trimRight line))

theorem mem_insertSet {v x : Nat} {s : List Nat} : v ∈ insertSet x s ↔ v = x ∨ v ∈ s := by
  unfold insertSet
  by_cases h : x ∈ s
  · rw [if_pos h]
    constructor
    · exact Or.inr
    · rintro (rfl | hv)
      · exact h
      · exact hv
  · rw [if_neg h, List.mem_cons]

theorem foldl_looseStep_spec (nums : List Nat) : ∀ (u l : List Nat) (v : Nat),
    (v ∈ (nums.foldl looseStep (u, l)).1 ↔ v ∈ u ∨ v ∈ nums) ∧
    (v ∈ (nums.foldl looseStep (u, l)).2 ↔
      v ∈ l ∨ (v ∈ u ∧ v ∈ nums) ∨ 2 ≤ nums.count v) := by
  induction nums with
  | nil => intro u l v; simp
  | cons x rest ih =>
    intro u l v
    rw [List.foldl_cons]
    by_cases hvx : v = x
    · subst hvx
      by_cases hx : v ∈ u
      · have hstep : looseStep (u, l) v = (u, insertSet v l) := by
          unfold looseStep; rw [if_pos hx]
        rw [hstep]
        obtain ⟨ih1, ih2⟩ := ih u (insertSet v l) v
        refine ⟨?_, ?_⟩
        · rw [ih1, List.mem_cons]
          constructor
          · rintro (hb | hc)
            · exact Or.inl hb
            · exact Or.inr (Or.inr hc)
          · intro _; exact Or.inl hx
        · rw [ih2, mem_insertSet, List.count_cons_self]
          constructor
          · intro _; exact Or.inr (Or.inl ⟨hx, List.mem_cons_self v rest⟩)
          · intro _; exact Or.inl (Or.inl rfl)
      · have hstep : looseStep (u, l) v = (insertSet v u, l) := by
          unfold looseStep; rw [if_neg hx]
        rw [hstep]
        obtain ⟨ih1, ih2⟩ := ih (insertSet v u) l v
        have hmem : v ∈ rest ↔ 0 < rest.count v := List.count_pos_iff.symm
        refine ⟨?_, ?_⟩
        · rw [ih1, mem_insertSet, List.mem_cons]
          constructor
          · rintro ((_ | hb) | hc)
            · exact Or.inr (Or.inl rfl)
            · exact Or.inl hb
            · exact Or.inr (Or.inr hc)
          · rintro (hb | (_ | hc))
            · exact Or.inl (Or.inr hb)
            · exact Or.inl (Or.inl rfl)
            · exact Or.inr hc
        · rw [ih2, mem_insertSet, List.count_cons_self, List.mem_cons]
          constructor
          · rintro (hl | ⟨_, hr⟩ | h2)
            · exact Or.inl hl
            · exact Or.inr (Or.inr (by rw [hmem] at hr; omega))
            · exact Or.inr (Or.inr (by omega))
          · rintro (hl | ⟨hvu, _⟩ | h2)
            · exact Or.inl hl
            · exact absurd hvu hx
            · have hr : v ∈ rest := hmem.mpr (by omega)
              exact Or.inr (Or.inl ⟨Or.inl rfl, hr⟩)
    · by_cases hx : x ∈ u
      · have hstep : looseStep (u, l) x = (u, insertSet x l) := by
          unfold looseStep; rw [if_pos hx]
        rw [hstep]
        obtain ⟨ih1, ih2⟩ := ih u (insertSet x l) v
        refine ⟨?_, ?_⟩
        · rw [ih1, List.mem_cons]
          constructor
          · rintro (hb | hc)
            · exact Or.inl hb
            · exact Or.inr (Or.inr hc)
          · rintro (hb | (he | hc))
            · exact Or.inl hb
            · exact absurd he hvx
            · exact Or.inr hc
        · rw [ih2, mem_insertSet, List.count_cons_of_ne hvx, List.mem_cons]
          constructor
          · rintro ((he | ha) | ⟨hb, hc⟩ | h2)
            · exact absurd he hvx
            · exact Or.inl ha
            · exact Or.inr (Or.inl ⟨hb, Or.inr hc⟩)
            · exact Or.inr (Or.inr h2)
          · rintro (ha | ⟨hb, (he | hc)⟩ | h2)
            · exact Or.inl (Or.inr ha)
            · exact absurd he hvx
            · exact Or.inr (Or.inl ⟨hb, hc⟩)
            · exact Or.inr (Or.inr h2)
      · have hstep : looseStep (u, l) x = (insertSet x u, l) := by
          unfold looseStep; rw [if_neg hx]
        rw [hstep]
        obtain ⟨ih1, ih2⟩ := ih (insertSet x u) l v
        refine ⟨?_, ?_⟩
        · rw [ih1, mem_insertSet, List.mem_cons]
          constructor
          · rintro ((he | hb) | hc)
            · exact absurd he hvx
            · exact Or.inl hb
            · exact Or.inr (Or.inr hc)
          · rintro (hb | (he | hc))
            · exact Or.inl (Or.inr hb)
            · exact absurd he hvx
            · exact Or.inr hc
        · rw [ih2, mem_insertSet, List.count_cons_of_ne hvx, List.mem_cons]
          constructor
          · rintro (ha | ⟨(he | hb), hc⟩ | h2)
            · exact Or.inl ha
            · exact absurd he hvx
            · exact Or.inr (Or.inl ⟨hb, Or.inr hc⟩)
            · exact Or.inr (Or.inr h2)
          · rintro (ha | ⟨hb, (he | hc)⟩ | h2)
            · exact Or.inl ha
            · exact absurd he hvx
            · exact Or.inr (Or.inl ⟨Or.inr hb, hc⟩)
            · exact Or.inr (Or.inr h2)

theorem mem_looseSet {nums : List Nat} {v : Nat} :
    v ∈ looseSet nums ↔ 2 ≤ nums.count v := by
  have h := (foldl_looseStep_spec nums [] [] v).2
  simpa [looseSet] using h

theorem mem_insertByVal {x p : Nat × Nat} {l : List (Nat × Nat)} :
    p ∈ insertByVal x l ↔ p = x ∨ p ∈ l := by
  induction l with
  | nil => simp [insertByVal]
  | cons y ys ih =>
    unfold insertByVal
    by_cases h : x.2 ≤ y.2
    · rw [if_pos h, List.mem_cons]
    · rw [if_neg h, List.mem_cons, ih, List.mem_cons]
      tauto

theorem perm_insertByVal (x : Nat × Nat) (l : List (Nat × Nat)) :
    (insertByVal x l).Perm (x :: l) := by
  induction l with
  | nil => exact List.Perm.refl _
  | cons y ys ih =>
    unfold insertByVal
    by_cases h : x.2 ≤ y.2
    · rw [if_pos h]
    · rw [if_neg h]
      exact (ih.cons y).trans (List.Perm.swap x y ys)

theorem perm_sortByVal (l : List (Nat × Nat)) : (sortByVal l).Perm l := by
  induction l with
  | nil => exact List.Perm.refl _
  | cons x xs ih => exact (perm_insertByVal x (sortByVal xs)).trans (ih.cons x)

theorem pairwise_insertByVal {x : Nat × Nat} {l : List (Nat × Nat)}
    (h : List.Pairwise (fun a b : Nat × Nat => a.2 ≤ b.2) l) :
    List.Pairwise (fun a b : Nat × Nat => a.2 ≤ b.2) (insertByVal x l) := by
  induction l with
  | nil => simp [insertByVal]
  | cons y ys ih =>
    rw [List.pairwise_cons] at h
    obtain ⟨hy, hys⟩ := h
    unfold insertByVal
    by_cases hle : x.2 ≤ y.2
    · rw [if_pos hle, List.pairwise_cons]
      refine ⟨?_, List.pairwise_cons.mpr ⟨hy, hys⟩⟩
      intro a ha
      rcases List.mem_cons.mp ha with rfl | ha
      · exact hle
      · exact le_trans hle (hy a ha)
    · rw [if_neg hle, List.pairwise_cons]
      refine ⟨?_, ih hys⟩
      intro a ha
      rcases mem_insertByVal.mp ha with rfl | ha
      · exact Nat.le_of_not_le hle
      · exact hy a ha

theorem pairwise_sortByVal (l : List (Nat × Nat)) :
    List.Pairwise (fun a b : Nat × Nat => a.2 ≤ b.2) (sortByVal l) := by
  induction l with
  | nil => simp [sortByVal]
  | cons x xs ih => exact pairwise_insertByVal ih

theorem mem_survivors {nums : List Nat} {i v : Nat} :
    (i, v) ∈ survivors nums ↔ nums[i]? = some v ∧ nums.count v = 1 := by
  unfold survivors
  rw [List.mem_filter, List.mk_mem_enum_iff_getElem?]
  constructor
  · rintro ⟨hg, hb⟩
    refine ⟨hg, ?_⟩
    obtain ⟨hlt, he⟩ := List.getElem?_eq_some_iff.mp hg
    have hv : v ∈ nums := he ▸ List.getElem_mem hlt
    have h1 : 0 < nums.count v := List.count_pos_iff.mpr hv
    have h2 : ¬ 2 ≤ nums.count v := by
      intro h2
      have hmem : v ∈ looseSet nums := mem_looseSet.mpr h2
      rw [Bool.not_eq_true'] at hb
      replace hmem : List.elem v (looseSet nums) = true := List.elem_iff.mpr hmem
      simp only [List.contains] at hb
      rw [hb] at hmem
      exact Bool.false_ne_true hmem
    omega
  · rintro ⟨hg, hc⟩
    refine ⟨hg, ?_⟩
    rw [Bool.not_eq_true']
    by_cases hb : (looseSet nums).contains v = true
    · have : 2 ≤ nums.count v := mem_looseSet.mp (List.elem_iff.mp hb)
      omega
    · exact Bool.not_eq_true _ ▸ (Bool.eq_false_iff.mpr (fun h => hb h))

theorem mem_sortSurv {nums : List Nat} {p : Nat × Nat} :
    p ∈ sortByVal (survivors nums) ↔ p ∈ survivors nums :=
  (perm_sortByVal _).mem_iff

theorem survivors_getD {nums : List Nat} {p : Nat × Nat} (h : p ∈ survivors nums) :
    p.1 < nums.length ∧ nums.getD p.1 0 = p.2 := by
  obtain ⟨i, v⟩ := p
  obtain ⟨hg, _⟩ := mem_survivors.mp h
  obtain ⟨hlt, he⟩ := List.getElem?_eq_some_iff.mp hg
  exact ⟨hlt, by rw [List.getD_eq_getElem _ _ hlt]; exact he⟩

theorem mem_playRound {nums : List Nat} {i : Nat} :
    i ∈ playRound nums ↔ i < nums.length ∧ nums.count (nums.getD i 0) = 1 := by
  unfold playRound
  rw [List.mem_map]
  constructor
  · rintro ⟨p, hp, rfl⟩
    have hs := mem_sortSurv.mp hp
    obtain ⟨hlt, hgd⟩ := survivors_getD hs
    obtain ⟨j, v⟩ := p
    obtain ⟨_, hc⟩ := mem_survivors.mp hs
    exact ⟨hlt, by rw [hgd]; exact hc⟩
  · rintro ⟨hlt, hc⟩
    refine ⟨(i, nums.getD i 0), ?_, rfl⟩
    rw [mem_sortSurv, mem_survivors]
    refine ⟨?_, hc⟩
    rw [List.getD_eq_getElem _ _ hlt]
    exact List.getElem?_eq_getElem hlt

theorem pairwise_playRound (nums : List Nat) :
    List.Pairwise (fun i j => nums.getD i 0 ≤ nums.getD j 0) (playRound nums) := by
  unfold playRound
  rw [List.pairwise_map]
  refine List.Pairwise.imp_of_mem ?_ (pairwise_sortByVal (survivors nums))
  intro a b ha hb hle
  obtain ⟨_, ha2⟩ := survivors_getD (mem_sortSurv.mp ha)
  obtain ⟨_, hb2⟩ := survivors_getD (mem_sortSurv.mp hb)
  rw [ha2, hb2]
  exact hle

theorem head_playRound {nums : List Nat} {w : Nat}
    (h : (playRound nums).head? = some w) :
    w < nums.length ∧ nums.count (nums.getD w 0) = 1 ∧
      ∀ j, j < nums.length → nums.count (nums.getD j 0) = 1 →
        nums.getD w 0 ≤ nums.getD j 0 := by
  have hw : w ∈ playRound nums :=
    List.mem_of_mem_head? (Option.mem_def.mpr h)
  obtain ⟨hlt, hc⟩ := mem_playRound.mp hw
  refine ⟨hlt, hc, ?_⟩
  intro j hj hcj
  have hjm : j ∈ playRound nums := mem_playRound.mpr ⟨hj, hcj⟩
  obtain ⟨t, ht⟩ : ∃ t, playRound nums = w :: t := by
    cases hl : playRound nums with
    | nil => rw [hl] at h; exact absurd h (by simp)
    | cons a t =>
      rw [hl] at h
      simp only [List.head?_cons, Option.some.injEq] at h
      exact ⟨t, by rw [← h]⟩
  have hp := pairwise_playRound nums
  rw [ht] at hp hjm
  rw [List.pairwise_cons] at hp
  rcases List.mem_cons.mp hjm with rfl | hjt
  · exact Nat.le_refl _
  · exact hp.1 j hjt

theorem digitChar_spec {d : Nat} (h : d < 10) :
    (Nat.digitChar d).isDigit = true ∧ (Nat.digitChar d).toNat = 48 + d ∧
    (Nat.digitChar d).isWhitespace = false ∧ Nat.digitChar d ≠ '+' ∧ Nat.digitChar d ≠ ' ' := by
  interval_cases d <;> exact (by decide)

theorem toDecChars_chars {fuel n : Nat} (h : n < fuel) :
    ∀ c ∈ toDecChars fuel n,
      c.isDigit = true ∧ c.isWhitespace = false ∧ c ≠ '+' ∧ c ≠ ' ' := by
  induction fuel generalizing n with
  | zero => omega
  | succ fuel ih =>
    intro c hc
    unfold toDecChars at hc
    by_cases h10 : n < 10
    · rw [if_pos h10] at hc
      rcases List.mem_singleton.mp hc with rfl
      obtain ⟨h1, _, h3, h4, h5⟩ := digitChar_spec h10
      exact ⟨h1, h3, h4, h5⟩
    · rw [if_neg h10] at hc
      rcases List.mem_append.mp hc with hc | hc
      · exact ih (by omega) c hc
      · rcases List.mem_singleton.mp hc with rfl
        obtain ⟨h1, _, h3, h4, h5⟩ := digitChar_spec (Nat.mod_lt n (by omega))
        exact ⟨h1, h3, h4, h5⟩

theorem toDecChars_ne_nil {fuel n : Nat} (h : n < fuel) : toDecChars fuel n ≠ [] := by
  match fuel with
  | 0 => omega
  | fuel' + 1 =>
    simp only [toDecChars]
    by_cases h10 : n < 10
    · rw [if_pos h10]; exact List.cons_ne_nil _ _
    · rw [if_neg h10]; exact List.append_ne_nil_of_right_ne_nil _ (List.cons_ne_nil _ _)

theorem foldl_parse_toDecChars {fuel : Nat} : ∀ {n : Nat}, n < fuel → ∀ acc : Nat,
    (toDecChars fuel n).foldl parseU32Step (some acc) =
      if acc * 10 ^ (toDecChars fuel n).length + n ≤ UMAX
      then some (acc * 10 ^ (toDecChars fuel n).length + n)
      else none := by
  induction fuel with
  | zero => intro n h; omega
  | succ fuel ih =>
    intro n h acc
    by_cases h10 : n < 10
    · obtain ⟨hd1, hd2, _⟩ := digitChar_spec h10
      simp only [toDecChars, if_pos h10, List.foldl_cons, List.foldl_nil,
        List.length_cons, List.length_nil, zero_add, pow_one]
      unfold parseU32Step
      rw [Option.some_bind, if_pos hd1, hd2]
      have hsub : 48 + n - 48 = n := by omega
      rw [hsub]
    · simp only [toDecChars, if_neg h10, List.foldl_append, List.length_append,
        List.length_cons, List.length_nil, zero_add]
      have hdiv : n / 10 < fuel := by omega
      rw [ih hdiv acc]
      obtain ⟨hd1, hd2, _⟩ := digitChar_spec (show n % 10 < 10 by omega)
      have hpow : (10:Nat) ^ ((toDecChars fuel (n / 10)).length + 1)
          = 10 ^ (toDecChars fuel (n / 10)).length * 10 := pow_succ 10 _
      rw [hpow]
      generalize (10:Nat) ^ (toDecChars fuel (n / 10)).length = P
      by_cases hover : acc * P + n / 10 ≤ UMAX
      · rw [if_pos hover]
        simp only [List.foldl_cons, List.foldl_nil]
        unfold parseU32Step
        rw [Option.some_bind, if_pos hd1, hd2]
        have hsub : 48 + n % 10 - 48 = n % 10 := by omega
        rw [hsub]
        have hval : (acc * P + n / 10) * 10 + n % 10 = acc * (P * 10) + n := by
          have := Nat.div_add_mod n 10
          ring_nf
          omega
        rw [hval]
      · rw [if_neg hover]
        simp only [List.foldl_cons, List.foldl_nil]
        unfold parseU32Step
        rw [Option.none_bind]
        have hgt : ¬ acc * (P * 10) + n ≤ UMAX := by
          have hmul : acc * P ≤ acc * (P * 10) := by
            have : P ≤ P * 10 := by omega
            exact Nat.mul_le_mul_left acc this
          have hdm : n / 10 ≤ n := Nat.div_le_self n 10
          omega
        rw [if_neg hgt]

theorem parseU32_toDecimal (n : Nat) :
    parseU32 (toDecimal n) = if n ≤ UMAX then some n else none := by
  have hlt : n < n + 1 := Nat.lt_succ_self n
  unfold parseU32 toDecimal
  have hne := toDecChars_ne_nil hlt
  have hstrip : stripPlus (toDecChars (n + 1) n) = toDecChars (n + 1) n := by
    cases hc : toDecChars (n + 1) n with
    | nil => rfl
    | cons c r =>
      have hcd := (toDecChars_chars hlt c (hc ▸ List.mem_cons_self c r)).2.2.1
      simp only [stripPlus]
      rw [if_neg hcd]
  simp only [hstrip]
  rw [if_neg (by simp [List.isEmpty_iff, hne])]
  rw [foldl_parse_toDecChars hlt 0]
  simp only [Nat.zero_mul, Nat.zero_add]

theorem parseU32_toDecimal_le {n : Nat} (h : n ≤ UMAX) :
    parseU32 (toDecimal n) = some n := by
  rw [parseU32_toDecimal, if_pos h]

theorem parseU32_toDecimal_gt {n : Nat} (h : UMAX < n) :
    parseU32 (toDecimal n) = none := by
  rw [parseU32_toDecimal, if_neg (by omega)]

theorem joinTokens_cons₂ (t t2 : List Char) (ts : List (List Char)) :
    joinTokens (t :: t2 :: ts) = t ++ ' ' :: joinTokens (t2 :: ts) := rfl

theorem splitSpaces_ne_nil (cs : List Char) : splitSpaces cs ≠ [] := by
  cases cs with
  | nil => simp [splitSpaces]
  | cons c rest =>
    simp only [splitSpaces]
    by_cases h : c = ' '
    · rw [if_pos h]; exact List.cons_ne_nil _ _
    · rw [if_neg h]
      cases splitSpaces rest <;> exact List.cons_ne_nil _ _

theorem splitSpaces_append {t : List Char} (ht : ∀ c ∈ t, c ≠ ' ') :
    ∀ {l u : List Char} {us : List (List Char)}, splitSpaces l = u :: us →
      splitSpaces (t ++ l) = (t ++ u) :: us := by
  induction t with
  | nil => intro l u us h; simpa using h
  | cons c t' ih =>
    intro l u us h
    have hc : c ≠ ' ' := ht c (List.mem_cons_self c t')
    have ht' : ∀ x ∈ t', x ≠ ' ' := fun x hx => ht x (List.mem_cons_of_mem c hx)
    have hrec := ih ht' h
    show splitSpaces (c :: (t' ++ l)) = ((c :: t') ++ u) :: us
    simp only [splitSpaces]
    rw [if_neg hc, hrec]
    simp [List.cons_append]

theorem splitSpaces_joinTokens : ∀ {ts : List (List Char)}, ts ≠ [] →
    (∀ t ∈ ts, ∀ c ∈ t, c ≠ ' ') → splitSpaces (joinTokens ts) = ts := by
  intro ts
  induction ts with
  | nil => intro h; exact absurd rfl h
  | cons t ts' ih =>
    intro _ hts
    cases ts' with
    | nil =>
      show splitSpaces (joinTokens [t]) = [t]
      have h0 : splitSpaces ([] : List Char) = [] :: [] := rfl
      have := splitSpaces_append (hts t (List.mem_cons_self t [])) h0
      simpa [joinTokens] using this
    | cons t2 ts'' =>
      have hrec := ih (List.cons_ne_nil t2 ts'')
        (fun x hx => hts x (List.mem_cons_of_mem t hx))
      have hsp : splitSpaces (' ' :: joinTokens (t2 :: ts'')) = [] :: t2 :: ts'' := by
        simp only [splitSpaces, if_true]
        rw [hrec]
      rw [joinTokens_cons₂]
      have := splitSpaces_append (hts t (List.mem_cons_self t (t2 :: ts''))) hsp
      simpa using this

theorem parseAll_map_toDecimal : ∀ {nums : List Nat}, (∀ v ∈ nums, v ≤ UMAX) →
    parseAll (nums.map toDecimal) = some nums := by
  intro nums
  induction nums with
  | nil => intro _; rfl
  | cons v vs ih =>
    intro h
    show parseAll (toDecimal v :: vs.map toDecimal) = some (v :: vs)
    simp only [parseAll]
    rw [parseU32_toDecimal_le (h v (List.mem_cons_self v vs)),
      ih (fun x hx => h x (List.mem_cons_of_mem v hx))]

theorem trimRight_append_newline (cs : List Char) :
    trimRight (cs ++ ['\n']) = trimRight cs := by
  unfold trimRight
  rw [List.reverse_append]
  have h1 : (['\n'] : List Char).reverse = ['\n'] := rfl
  rw [h1]
  have h2 : ('\n' :: cs.reverse).dropWhile Char.isWhitespace
      = cs.reverse.dropWhile Char.isWhitespace := by
    rw [List.dropWhile_cons, if_pos (by decide)]
  rw [List.singleton_append, h2]

theorem trimRight_eq_self {cs : List Char} {c : Char} {r : List Char}
    (h : cs.reverse = c :: r) (hc : c.isWhitespace = false) : trimRight cs = cs := by
  unfold trimRight
  rw [h, List.dropWhile_cons, hc]
  simp only [Bool.false_eq_true, if_false]
  rw [← h, List.reverse_reverse]

theorem joinTokens_rev_nws : ∀ {ts : List (List Char)}, ts ≠ [] →
    (∀ t ∈ ts, ∃ c r, t.reverse = c :: r ∧ c.isWhitespace = false) →
    ∃ c r, (joinTokens ts).reverse = c :: r ∧ c.isWhitespace = false := by
  intro ts
  induction ts with
  | nil => intro h; exact absurd rfl h
  | cons t ts' ih =>
    intro _ h
    cases ts' with
    | nil =>
      obtain ⟨c, r, hcr, hc⟩ := h t (List.mem_cons_self t [])
      exact ⟨c, r, hcr, hc⟩
    | cons t2 ts'' =>
      obtain ⟨c, r, hcr, hc⟩ := ih (List.cons_ne_nil t2 ts'')
        (fun x hx => h x (List.mem_cons_of_mem t hx))
      refine ⟨c, r ++ ' ' :: t.reverse, ?_, hc⟩
      rw [joinTokens_cons₂, List.reverse_append, List.reverse_cons, hcr]
      simp [List.append_assoc]

theorem toDecimal_rev_nws (n : Nat) :
    ∃ c r, (toDecimal n).reverse = c :: r ∧ c.isWhitespace = false := by
  unfold toDecimal
  simp only [toDecChars]
  by_cases h : n < 10
  · rw [if_pos h]
    exact ⟨Nat.digitChar n, [], rfl, (digitChar_spec h).2.2.1⟩
  · rw [if_neg h]
    refine ⟨Nat.digitChar (n % 10), (toDecChars n (n / 10)).reverse, ?_,
      (digitChar_spec (show n % 10 < 10 by omega)).2.2.1⟩
    rw [List.reverse_append]
    rfl

theorem decodeNums_numsLine {nums : List Nat} (hne : nums ≠ [])
    (hb : ∀ v ∈ nums, v ≤ UMAX) :
    decodeNums (numsLine nums) = some nums := by
  unfold decodeNums numsLine
  rw [trimRight_append_newline]
  have hmapne : nums.map toDecimal ≠ [] := by
    intro h
    exact hne (List.map_eq_nil_iff.mp h)
  have htokens : ∀ t ∈ nums.map toDecimal, ∀ c ∈ t, c ≠ ' ' := by
    intro t ht c hc
    obtain ⟨v, _, rfl⟩ := List.mem_map.mp ht
    exact (toDecChars_chars (Nat.lt_succ_self v) c hc).2.2.2
  obtain ⟨c, r, hcr, hcw⟩ := joinTokens_rev_nws hmapne (by
    intro t ht
    obtain ⟨v, _, rfl⟩ := List.mem_map.mp ht
    exact toDecimal_rev_nws v)
  rw [trimRight_eq_self hcr hcw]
  rw [splitSpaces_joinTokens hmapne htokens]
  exact parseAll_map_toDecimal hb

theorem err_num (c : Client) : (err c).num = UMAX := rfl

theorem poll_noop {c : Client} (r : ReadResult)
    (h : c.state = State.Error ∨ c.state = State.Wait ∨
      c.state = State.PostStep ∨ c.state = State.End) :
    poll c r = c := by
  rcases h with h | h | h | h <;> simp [poll, h]

theorem poll_cases (c : Client) (r : ReadResult) :
    poll c r = c ∨ poll c r = err c ∨
      (poll c r).state = State.Wait ∨ (poll c r).state = State.PostStep := by
  rcases hc : c.state with _ | _ | _ | _ | _ | _
  · rcases r with cs | _ | _
    · by_cases hcs : cs = readyLine <;> simp [poll, hc, hcs]
    · simp [poll, hc]
    · simp [poll, hc]
  · simp [poll, hc]
  · simp [poll, hc]
  · rcases r with cs | _ | _
    · rcases hp : parseU32 cs with _ | g <;> simp [poll, hc, hp]
    · simp [poll, hc]
    · simp [poll, hc]
  · simp [poll, hc]
  · simp [poll, hc]

theorem send_game_fst_cases (c : Client) (w : WriteResult) :
    (send_game c w).1 = c ∨ ((send_game c w).1).state = State.Step := by
  by_cases h : c.state = State.Error <;> simp [send_game, h]

theorem send_end_fst_cases (c : Client) (w : WriteResult) :
    (send_end c w).1 = c ∨ ((send_end c w).1).state = State.End := by
  by_cases h : c.state = State.Error <;> simp [send_end, h]

theorem send_nums_fst_cases (c : Client) (ns : List Nat) (w : WriteResult) :
    (send_nums c ns w).1 = c ∨ ((send_nums c ns w).1).num = UMAX ∨
      ((send_nums c ns w).1).state = State.Wait := by
  by_cases h : c.state = State.Error
  · simp [send_nums, h]
  · rcases w with _ | _ | _ <;> simp [send_nums, sendLineRes, h, err]

theorem reach_error_num {c : Client} (h : Reach c) : c.state = State.Error → c.num = UMAX := by
  induction h with
  | init => intro h; exact absurd h (by decide)
  | step_poll c r _ ih =>
    intro h
    rcases poll_cases c r with he | he | he | he
    · rw [he] at h ⊢; exact ih h
    · rw [he]; rfl
    · rw [h] at he; exact absurd he (by decide)
    · rw [h] at he; exact absurd he (by decide)
  | step_game c w _ ih =>
    intro h
    rcases send_game_fst_cases c w with he | he
    · rw [he] at h ⊢; exact ih h
    · rw [h] at he; exact absurd he (by decide)
  | step_nums c ns w _ ih =>
    intro h
    rcases send_nums_fst_cases c ns w with he | he | he
    · rw [he] at h ⊢; exact ih h
    · exact he
    · rw [h] at he; exact absurd he (by decide)
  | step_end c w _ ih =>
    intro h
    rcases send_end_fst_cases c w with he | he
    · rw [he] at h ⊢; exact ih h
    · rw [h] at he; exact absurd he (by decide)

/-- C1 counterexample: in the round `[u32::MAX, 3, 3]` the two real values `3`
are duplicated and eliminated, so the Error client's unique sentinel wins the
round even though another client submitted a real (non-sentinel) value. -/
theorem c1_cex :
    (playRound [4294967295, 3, 3]).head? = some 0 ∧
      [4294967295, 3, 3].getD 0 0 = UMAX ∧ [4294967295, 3, 3].getD 1 0 ≠ UMAX := by
  decide

/-- C1 (amended): an Error client (submission `u32::MAX`) never wins a round in
which some other client submits a real (non-sentinel) value that is unique in
the round's value vector. -/
theorem c1_amended (nums : List Nat) (i j : Nat)
    (hbound : ∀ v ∈ nums, v ≤ UMAX)
    (_hi : i < nums.length) (hj : j < nums.length) (_hij : j ≠ i)
    (hsent : nums.getD i 0 = UMAX) (hreal : nums.getD j 0 ≠ UMAX)
    (huniq : nums.count (nums.getD j 0) = 1) :
    (playRound nums).head? ≠ some i := by
  intro hhead
  obtain ⟨_, _, hmin⟩ := head_playRound hhead
  have hle : nums.getD i 0 ≤ nums.getD j 0 := hmin j hj huniq
  have hjb : nums.getD j 0 ≤ UMAX := by
    have hm : nums.getD j 0 ∈ nums := by
      rw [List.getD_eq_getElem _ _ hj]; exact List.getElem_mem hj
    exact hbound _ hm
  rw [hsent] at hle
  exact hreal (le_antisymm hjb hle)

/-- C1 witness: with submissions `[u32::MAX, 5]` the Error client does not win. -/
theorem c1_witness : (playRound [4294967295, 5]).head? ≠ some 0 :=
  c1_amended [4294967295, 5] 0 1 (by decide) (by decide) (by decide) (by decide)
    (by decide) (by decide) (by decide)

/-- C2: the round outcome is exactly the list of indices whose value appears
exactly once in the vector, sorted ascending by submitted value, and index 0 of
that list, if present, is the sole competitor whose score is incremented by
one. -/
theorem c2_round_outcome (nums score : List Nat) (hlen : score.length = nums.length) :
    (∀ i, i ∈ playRound nums ↔ i < nums.length ∧ nums.count (nums.getD i 0) = 1) ∧
    List.Pairwise (fun i j => nums.getD i 0 ≤ nums.getD j 0) (playRound nums) ∧
    (∀ j, j < score.length →
      (applyOutcome score (playRound nums)).getD j 0 =
        score.getD j 0 + (if (playRound nums).head? = some j then 1 else 0)) := by
  refine ⟨fun i => mem_playRound, pairwise_playRound nums, ?_⟩
  intro j hj
  rcases hh : (playRound nums).head? with _ | w
  · simp [applyOutcome, hh]
  · have hw : w < nums.length := (head_playRound hh).1
    have hw' : w < score.length := by omega
    simp only [applyOutcome, hh]
    by_cases hjw : j = w
    · subst hjw
      rw [List.getD_eq_getElem _ _ (by rw [List.length_set]; exact hw'),
        List.getElem_set_self, if_pos rfl]
    · rw [List.getD_eq_getElem _ _ (by rw [List.length_set]; exact hj),
        List.getElem_set_ne (fun he => hjw he.symm),
        if_neg (fun he => hjw (Option.some.inj he).symm),
        List.getD_eq_getElem _ _ hj]
      simp

/-- C2 witness: on submissions `[5, 2, 2]` with scores `[0, 0, 0]`, the score
update credits competitor 0 (the unique `5`) with one point. -/
theorem c2_witness :
    ([0, 0, 0] : List Nat).length = [5, 2, 2].length ∧
    (0 ∈ playRound [5, 2, 2] ↔
      0 < [5, 2, 2].length ∧ [5, 2, 2].count ([5, 2, 2].getD 0 0) = 1) ∧
    (applyOutcome [0, 0, 0] (playRound [5, 2, 2])).getD 0 0 =
      [0, 0, 0].getD 0 0 + (if (playRound [5, 2, 2]).head? = some 0 then 1 else 0) := by
  have h := c2_round_outcome [5, 2, 2] [0, 0, 0] (by decide)
  exact ⟨by decide, h.1 0, h.2.2 0 (by decide)⟩

/-- C3 counterexample: a client whose process never emits `ready` (here: the
handshake read times out) is moved to `Error` already by the one-pass readiness
wait, not left in `Init`. -/
theorem c3_cex :
    wait_ready [fromChild] [ReadResult.timeout] = [{ state := State.Error, num := UMAX }] ∧
      (poll fromChild ReadResult.timeout).state ≠ State.Init := by
  decide

/-- C3 (amended): a client in `Init` whose poll does not read the line `ready`
(timeout, I/O failure, or any other line) is moved to `Error` with the sentinel
value by the readiness wait's single poll; the match is not aborted, the wait
merely logs and continues. -/
theorem c3_amended (c : Client) (r : ReadResult) (hc : c.state = State.Init)
    (hr : r ≠ ReadResult.line readyLine) :
    (poll c r).state = State.Error ∧ get_num (poll c r) = UMAX := by
  rcases r with cs | _ | _
  · have hcs : cs ≠ readyLine := fun he => hr (by rw [he])
    simp [poll, hc, hcs, err, get_num]
  · simp [poll, hc, err, get_num]
  · simp [poll, hc, err, get_num]

/-- C3 witness: the fresh client whose handshake read timed out is in `Error`
after its readiness poll. -/
theorem c3_witness :
    (poll fromChild ReadResult.timeout).state = State.Error ∧
      get_num (poll fromChild ReadResult.timeout) = UMAX :=
  c3_amended fromChild ReadResult.timeout rfl (by decide)

/-- C4 counterexample: a freshly constructed client (no value ever parsed, no
operation performed) reports `0xDEADBEEF`, not the sentinel `u32::MAX`. -/
theorem c4_cex :
    get_num fromChild = 0xDEADBEEF ∧ get_num fromChild ≠ UMAX ∧
      fromChild.state = State.Init := by
  decide

/-- C4 (amended): every reachable client that is in the `Error` state reports
the sentinel `u32::MAX` from `get_num`; a freshly constructed client on which
no operation has been performed instead reports the initialization placeholder
`0xDEADBEEF`. -/
theorem c4_amended :
    (∀ c : Client, Reach c → c.state = State.Error → get_num c = UMAX) ∧
      get_num fromChild = 0xDEADBEEF :=
  ⟨fun _ h hs => reach_error_num h hs, rfl⟩

/-- C4 witness: the client errored by its handshake timeout reports the
sentinel. -/
theorem c4_witness : get_num (poll fromChild ReadResult.timeout) = UMAX :=
  c4_amended.1 (poll fromChild ReadResult.timeout)
    (Reach.step_poll fromChild ReadResult.timeout Reach.init) (by decide)

/-- C5: Error is absorbing — for every reachable client in the `Error` state,
`poll` and each send operation leaves the client unchanged and writes nothing
to the subprocess (the emitted line is `none`), and its last value is the
sentinel `u32::MAX`. -/
theorem c5_error_absorbing (c : Client) (hre : Reach c) (h : c.state = State.Error)
    (r : ReadResult) (w : WriteResult) (ns : List Nat) :
    poll c r = c ∧ send_game c w = (c, none) ∧ send_nums c ns w = (c, none) ∧
      send_end c w = (c, none) ∧ get_num c = UMAX := by
  refine ⟨poll_noop r (Or.inl h), ?_, ?_, ?_, reach_error_num hre h⟩
  · simp [send_game, h]
  · simp [send_nums, h]
  · simp [send_end, h]

/-- C5 witness: all operations are no-ops on a concrete errored client. -/
theorem c5_witness :
    poll (poll fromChild ReadResult.timeout) ReadResult.ioError
        = poll fromChild ReadResult.timeout ∧
      send_game (poll fromChild ReadResult.timeout) WriteResult.ok
        = (poll fromChild ReadResult.timeout, none) ∧
      send_nums (poll fromChild ReadResult.timeout) [1, 2] WriteResult.ok
        = (poll fromChild ReadResult.timeout, none) ∧
      send_end (poll fromChild ReadResult.timeout) WriteResult.ok
        = (poll fromChild ReadResult.timeout, none) ∧
      get_num (poll fromChild ReadResult.timeout) = UMAX :=
  c5_error_absorbing (poll fromChild ReadResult.timeout)
    (Reach.step_poll fromChild ReadResult.timeout Reach.init) (by decide)
    ReadResult.ioError WriteResult.ok [1, 2]

/-- C6: in `Step` (AwaitingValue), polling a line that parses as a u32 stores
the value and moves to `PostStep` (AwaitingRoundEnd); a non-numeric line or a
failed read moves the client to `Error`. -/
theorem c6_awaiting_value (c : Client) (cs : List Char) (hc : c.state = State.Step) :
    (∀ v, parseU32 cs = some v →
        poll c (ReadResult.line cs) = { state := State.PostStep, num := v }) ∧
    (parseU32 cs = none → poll c (ReadResult.line cs) = err c) ∧
    poll c ReadResult.timeout = err c ∧ poll c ReadResult.ioError = err c := by
  refine ⟨?_, ?_, by simp [poll, hc], by simp [poll, hc]⟩
  · intro v hv
    simp [poll, hc, hv]
  · intro hv
    simp [poll, hc, hv]

/-- C6 witness: reading the line `7` in `Step` stores `7` and moves to
`PostStep`. -/
theorem c6_witness :
    poll { state := State.Step, num := 0 } (ReadResult.line ("7".data)) =
      { state := State.PostStep, num := 7 } :=
  (c6_awaiting_value { state := State.Step, num := 0 } ("7".data) rfl).1 7 (by decide)

/-- C7: if all submitted values are pairwise distinct the round has a winner,
namely the competitor with the minimum value; and on submissions `[5, 2, 2]`
the winner is competitor 0, who submitted `5`. -/
theorem c7_distinct_min :
    (∀ nums : List Nat, nums ≠ [] → nums.Nodup →
      ∃ w, (playRound nums).head? = some w ∧ w < nums.length ∧
        ∀ j, j < nums.length → nums.getD w 0 ≤ nums.getD j 0) ∧
    (playRound [5, 2, 2]).head? = some 0 ∧ [5, 2, 2].getD 0 0 = 5 := by
  refine ⟨?_, by decide, by decide⟩
  intro nums hne hnd
  have hcount : ∀ i, i < nums.length → nums.count (nums.getD i 0) = 1 := by
    intro i hi
    rw [List.getD_eq_getElem _ _ hi]
    exact List.count_eq_one_of_mem hnd (List.getElem_mem hi)
  have hlen : 0 < nums.length := List.length_pos.mpr hne
  have h0 : 0 ∈ playRound nums := mem_playRound.mpr ⟨hlen, hcount 0 hlen⟩
  obtain ⟨w, hw⟩ : ∃ w, (playRound nums).head? = some w := by
    cases hl : playRound nums with
    | nil => rw [hl] at h0; exact absurd h0 (List.not_mem_nil 0)
    | cons a t => exact ⟨a, rfl⟩
  obtain ⟨hwlt, _, hmin⟩ := head_playRound hw
  exact ⟨w, hw, hwlt, fun j hj => hmin j hj (hcount j hj)⟩

/-- C7 witness: on the pairwise distinct submissions `[3, 1, 2]` a winner
exists with the minimal value. -/
theorem c7_witness :
    ∃ w, (playRound [3, 1, 2]).head? = some w ∧ w < [3, 1, 2].length ∧
      ∀ j, j < [3, 1, 2].length → [3, 1, 2].getD w 0 ≤ [3, 1, 2].getD j 0 :=
  c7_distinct_min.1 [3, 1, 2] (by decide) (by decide)

/-- C8: when every submitted value is duplicated by at least one other
competitor, the round outcome is the empty winner list, no winner is scored,
and every score is unchanged. -/
theorem c8_all_duplicated (nums score : List Nat)
    (h : ∀ i, i < nums.length → 2 ≤ nums.count (nums.getD i 0)) :
    playRound nums = [] ∧ applyOutcome score (playRound nums) = score := by
  have hpr : playRound nums = [] := by
    unfold playRound
    have hsurv : survivors nums = [] := by
      unfold survivors
      rw [List.filter_eq_nil_iff]
      intro p hp
      obtain ⟨i, v⟩ := p
      rw [List.mk_mem_enum_iff_getElem?] at hp
      obtain ⟨hlt, he⟩ := List.getElem?_eq_some_iff.mp hp
      have hv : 2 ≤ nums.count v := by
        have hi := h i hlt
        rw [List.getD_eq_getElem _ _ hlt, he] at hi
        exact hi
      simp
      exact mem_looseSet.mpr hv
    rw [hsurv]
    rfl
  refine ⟨hpr, ?_⟩
  rw [hpr]
  rfl

/-- C8 witness: scenario A — submissions `[3, 3]` produce no winner and leave
the scores `[0, 0]` unchanged. -/
theorem c8_witness :
    playRound [3, 3] = [] ∧ applyOutcome [0, 0] (playRound [3, 3]) = [0, 0] :=
  c8_all_duplicated [3, 3] [0, 0] (by decide)

/-- C9 counterexample: the empty value vector encodes to the bare newline,
which parses back as one empty token and fails, so the round-trip does not
reproduce `[]`. -/
theorem c9_cex : decodeNums (numsLine ([] : List Nat)) = none := by decide

/-- C9 (amended): for every nonempty vector of u32 values, serializing it as
`send_nums` does (space-separated decimals in match order, newline-terminated)
and then splitting the line on spaces and parsing each token back reproduces
the original vector exactly. -/
theorem c9_roundtrip (nums : List Nat) (hne : nums ≠ []) (hb : ∀ v ∈ nums, v ≤ UMAX) :
    decodeNums (numsLine nums) = some nums :=
  decodeNums_numsLine hne hb

/-- C9 witness: the vector `[5, 2, 2]` round-trips through the wire encoding. -/
theorem c9_witness : decodeNums (numsLine [5, 2, 2]) = some [5, 2, 2] :=
  c9_roundtrip [5, 2, 2] (by decide) (by decide)

/-- C10: the accepted guess domain is the u32 range — in `Step`, a line holding
a decimal integer strictly greater than `4294967295` fails the parse and moves
the client to `Error` (with the sentinel value), while the line `4294967295`
itself is accepted as an ordinary value, indistinguishable from the error
sentinel. -/
theorem c10_guess_domain (c : Client) (hc : c.state = State.Step) :
    (∀ n : Nat, UMAX < n →
      (poll c (ReadResult.line (toDecimal n))).state = State.Error ∧
        get_num (poll c (ReadResult.line (toDecimal n))) = UMAX) ∧
    poll c (ReadResult.line ("4294967295".data)) =
      { state := State.PostStep, num := UMAX } := by
  constructor
  · intro n hn
    have hp : parseU32 (toDecimal n) = none := parseU32_toDecimal_gt hn
    simp [poll, hc, hp, err, get_num]
  · have hp : parseU32 ("4294967295".data) = some UMAX := by decide
    simp [poll, hc, hp]

/-- C10 witness: the line `4294967296` (one past `u32::MAX`) errors the client
and leaves the sentinel. -/
theorem c10_witness :
    (poll { state := State.Step, num := 0 }
        (ReadResult.line (toDecimal 4294967296))).state = State.Error ∧
      get_num (poll { state := State.Step, num := 0 }
        (ReadResult.line (toDecimal 4294967296))) = UMAX :=
  (c10_guess_domain { state := State.Step, num := 0 } rfl).1 4294967296 (by decide)

end Game
